import Mathlib

/-
Verification of collections.cpp: a C++ implementation of Python-style
collections (defaultdict, Counter, ChainMap) built on std::unordered_map /
std::map.

Shallow embedding conventions:
  - an unordered_map / map state is an association list `List (K × V)` in
    iteration order, with unique keys in every state the modelled code can
    produce; insertion position of a fresh key is implementation defined and
    modelled as appending at the end;
  - C++ `int` counts are `Int` (no arithmetic in the source can overflow in
    the driver's ranges, and no claim is about overflow);
  - a lookup that throws std::out_of_range is modelled as `none`;
  - out-of-range iterator arithmetic / element access on the working
    std::vector of most_common is modelled as `none` (the source relies on
    std::make_heap / std::pop_heap, whose C++-standard contract is modelled
    by the textbook sift-down heap algorithm; the permutation chosen among
    equal-count ties may differ from libstdc++'s, and no claim depends on
    the tie order, which the spec leaves unspecified);
  - functions with an explicit `Nat` fuel argument use it only as a
    termination bound, with enough fuel supplied at every call site.
-/

section MapModel

variable {K V : Type} [DecidableEq K]

/-- Lookup in the association-list model of std::unordered_map / std::map:
the value of the first entry whose key matches, `none` when the key is
absent (a bounds-checked `at` would throw std::out_of_range there). -/
def lookupC : List (K × V) → K → Option V
  | [], _ => none
  | (a, v) :: l, k => if a = k then some v else lookupC l k

/-- First-`some` composition of two lookups (helper for stating results). -/
def orO : Option V → Option V → Option V
  | some v, _ => some v
  | none, o => o

/-- A single std::map / std::unordered_map `insert`: when an entry with the
key is already present the container is unchanged, otherwise the entry is
added. -/
def umapInsert (m : List (K × V)) (p : K × V) : List (K × V) :=
  match lookupC m p.1 with
  | some _ => m
  | none => m ++ [p]

/-- Construction of std::unordered_map from an initializer_list, as used by
the seeded defaultdict constructor (collections.cpp:50-51): the listed
elements are inserted in order with `insert` semantics. -/
def umapOfList (il : List (K × V)) : List (K × V) :=
  il.foldl umapInsert []

/-- `m[k] = v` on the underlying map: overwrite the stored value when the
key is present (the stored key object is kept), append the entry
otherwise. -/
def umapSet : List (K × V) → K → V → List (K × V)
  | [], k, v => [(k, v)]
  | (a, w) :: l, k, v => if a = k then (a, v) :: l else (a, w) :: umapSet l k v

/-- defaultdict::operator[] (collections.cpp:53-58): try the bounds-checked
base-class `at`; on std::out_of_range, materialize f() and store it under
the key. The factory f is a captureless pure `V (*)()`; the third component
counts how many times f was invoked during the call. -/
def defaultdict_index (f : Unit → V) (m : List (K × V)) (k : K) :
    V × List (K × V) × Nat :=
  match lookupC m k with
  | some v => (v, m, 0)
  | none => (f (), umapSet m k (f ()), 1)

end MapModel

section CounterModel

variable {T : Type} [DecidableEq T]

/-- The count stored for t, an absent entry reading as 0: the observable the
count-level properties are stated with. -/
def cntLookup (c : List (T × Int)) (t : T) : Int :=
  (lookupC c t).getD 0

/-- Modelled from the spec: `count_of(element)` "returns stored count, or 0
if absent, without mutating the mapping". The source has no such member:
Counter only deletes the mutable accessor `at` (collections.cpp:112), so the
read-only scalar lookup the spec describes is missing from src and is
modelled from the spec's words as (returned count, unchanged mapping). -/
def count_of (c : List (T × Int)) (t : T) : Int × List (T × Int) :=
  ((lookupC c t).getD 0, c)

/-- `(*this)[t.first] += t.second` inside Counter::operator+=
(collections.cpp:120): std::unordered_map::operator[] value-initializes an
absent entry to 0, then += adds to it. -/
def bumpAdd : List (T × Int) → T → Int → List (T × Int)
  | [], t, d => [(t, 0 + d)]
  | (a, c) :: l, t, d => if a = t then (a, c + d) :: l else (a, c) :: bumpAdd l t d

/-- `(*this)[t.first] -= t.second` inside Counter::operator-=
(collections.cpp:125): as bumpAdd with subtraction. -/
def bumpSub : List (T × Int) → T → Int → List (T × Int)
  | [], t, d => [(t, 0 - d)]
  | (a, c) :: l, t, d => if a = t then (a, c - d) :: l else (a, c) :: bumpSub l t d

/-- Counter::operator+= (collections.cpp:119-122): for every entry of the
operand, add its count to the corresponding entry of the receiver. -/
def counter_add (c other : List (T × Int)) : List (T × Int) :=
  other.foldl (fun acc p => bumpAdd acc p.1 p.2) c

/-- Counter::operator-= (collections.cpp:124-127). -/
def counter_sub (c other : List (T × Int)) : List (T × Int) :=
  other.foldl (fun acc p => bumpSub acc p.1 p.2) c

/-- Counter::Iter (collections.cpp:73-91): `rest` is the entry range
[curr, end) of the underlying map, `count` the remaining repetitions of
*curr. -/
structure CIter (T : Type) where
  rest : List (T × Int)
  count : Int

/-- The loop of Iter::operator++ (collections.cpp:81-82):
`while (count <= 0 && ++curr != end) count = curr->second;`
returning the final (count, [curr, end)). -/
def seekLoop : List (T × Int) → Int → Int × List (T × Int)
  | [], c => (c, [])
  | hd :: tl, c =>
    if 0 < c then (c, hd :: tl)
    else
      match tl with
      | [] => (c, [])
      | (_, c2) :: _ => seekLoop tl c2

/-- Iter::operator++ (collections.cpp:79-84): decrement count, then advance
past exhausted and non-positive entries. -/
def elemIterInc (st : CIter T) : CIter T :=
  let p := seekLoop st.rest (st.count - 1)
  ⟨p.2, p.1⟩

/-- The initial skip of Counter::elements (collections.cpp:94-95):
`while (i != j && i->second <= 0) ++i;`. -/
def skipNonpos : List (T × Int) → List (T × Int)
  | [] => []
  | (t, c) :: tl => if c ≤ 0 then skipNonpos tl else (t, c) :: tl

/-- Counter::elements (collections.cpp:93-97): the begin iterator after the
initial skip, with Iter's constructor count `i == e ? 0 : i->second`. -/
def elemIterStart (l : List (T × Int)) : CIter T :=
  match skipNonpos l with
  | [] => ⟨[], 0⟩
  | (t, c) :: tl => ⟨(t, c) :: tl, c⟩

/-- A range-for over the elements() range: yield *curr then ++ until
curr == end. fuel only bounds the iteration; the sum of all non-negative
counts is enough fuel for a full traversal. -/
def elemRun : Nat → CIter T → List T
  | 0, _ => []
  | fuel + 1, st =>
    match st.rest with
    | [] => []
    | (t, _) :: _ => t :: elemRun fuel (elemIterInc st)

/-- The full sequence produced by iterating Counter::elements. -/
def elements (l : List (T × Int)) : List T :=
  elemRun ((l.map (fun p => p.2.toNat)).sum) (elemIterStart l)

/-- Reference flattening of a counter entry list: each entry repeated
max(count, 0) times in entry order (proof-side description of the elements
traversal). -/
def flatElements : List (T × Int) → List T
  | [] => []
  | (t, c) :: tl =>
    if c ≤ 0 then flatElements tl else List.replicate c.toNat t ++ flatElements tl

/-- Proof-side reading of an iterator state: the remaining repetitions of
the current entry's element followed by the flattening of the entries after
it. -/
def iterSpec : CIter T → List T
  | ⟨[], _⟩ => []
  | ⟨(t, _) :: tl, cnt⟩ => List.replicate cnt.toNat t ++ flatElements tl

end CounterModel

section HeapModel

variable {T : Type} [Inhabited T]

/-- v[i] on the working std::vector of most_common; every access the
modelled code performs is in bounds (out-of-range iterator arithmetic is
detected before any access). -/
def lget {α : Type} [Inhabited α] (l : List α) (i : Nat) : α := l.getD i default

/-- std::swap(v[i], v[j]). -/
def lswap {α : Type} [Inhabited α] (l : List α) (i j : Nat) : List α :=
  (l.set i (lget l j)).set j (lget l i)

/-- Sift-down with the comparator cmp(l, r) = l.second < r.second
(collections.cpp:102-105): while some child of r within [0, last) is larger,
swap r with its largest child and continue there. Textbook algorithm
realizing the C++ standard's heap contract relied on by std::make_heap and
std::pop_heap; fuel ≥ last - r bounds the descent. -/
def siftDown : Nat → List (T × Int) → Nat → Nat → List (T × Int)
  | 0, v, _, _ => v
  | fuel + 1, v, r, last =>
    if 2 * r + 1 < last then
      let c :=
        if 2 * r + 2 < last ∧ (lget v (2 * r + 1)).2 < (lget v (2 * r + 2)).2 then
          2 * r + 2
        else 2 * r + 1
      if (lget v r).2 < (lget v c).2 then siftDown fuel (lswap v r c) c last else v
    else v

/-- The make_heap traversal: sift down every position from the back of the
vector to the root. -/
def heapLoop : List (T × Int) → Nat → List (T × Int)
  | v, 0 => v
  | v, k + 1 => heapLoop (siftDown v.length v k v.length) k

/-- std::make_heap(v.begin(), v.end(), cmp) (collections.cpp:106). -/
def makeHeap (v : List (T × Int)) : List (T × Int) :=
  heapLoop v v.length

/-- std::pop_heap(v.begin(), v.begin() + last, cmp): for a range of at least
two elements, swap the maximal root with the last element of the range and
restore the heap on the shortened range; shorter ranges are left
untouched. -/
def popHeap (v : List (T × Int)) (last : Nat) : List (T × Int) :=
  if 2 ≤ last then siftDown last (lswap v 0 (last - 1)) 0 (last - 1) else v

/-- The selection loop of most_common (collections.cpp:107):
`for (int i = 0; i < n; ++i) std::pop_heap(v.begin(), v.end() - i, cmp);`
Forming v.end() - i with i > v.size() leaves the vector: modelled as
failure. -/
def popLoop : List (T × Int) → Nat → Nat → Option (List (T × Int))
  | v, 0, _ => some v
  | v, k + 1, i =>
    if v.length < i then none
    else popLoop (popHeap v (v.length - i)) k (i + 1)

/-- The vector most_common returns (collections.cpp:108-109):
`{reverse_iterator(v.end()), reverse_iterator(v.end() - n)}`, i.e. the last
n elements of v in reverse order; an n outside [0, v.size()] makes
v.end() - n out of range: modelled as failure. -/
def takeRevEnd (v : List (T × Int)) (n : Int) : Option (List (T × Int)) :=
  if 0 ≤ n ∧ n ≤ (v.length : Int) then some (v.reverse.take n.toNat) else none

/-- Counter::most_common (collections.cpp:99-110): n = 0 is replaced by the
entry count; the entries are copied into a working vector, heapified, the
top n are selected by repeated pop_heap, and the tail of the vector is
returned in reverse. -/
def most_common (c : List (T × Int)) (n : Int) : Option (List (T × Int)) :=
  let n : Int := if n = 0 then (c.length : Int) else n
  match popLoop (makeHeap c) n.toNat 0 with
  | none => none
  | some v => takeRevEnd v n

/-- Counter::most_common as a state-passing operation on the counter: the
method body only reads this->begin()..this->end() to build the working
vector v and never writes through *this, so the post-state of the counter
is its pre-state. -/
def most_common_op (c : List (T × Int)) (n : Int) :
    Option (List (T × Int)) × List (T × Int) :=
  (most_common c n, c)

/-- Proof-side ancestor test in the implicit binary heap laid out in the
vector: hasAnc r j holds when repeatedly taking the parent (j-1)/2 from j
reaches r, i.e. when j lies in the subtree rooted at r. -/
def hasAnc (r j : Nat) : Bool :=
  if j ≤ r then j == r else hasAnc r ((j - 1) / 2)
termination_by j
decreasing_by omega

/-- Proof-side heap predicate: within the range [0, last), every node j
whose parent index (j-1)/2 is at least r is no larger (by count) than its
parent, i.e. the max-heap shape holds below r. -/
def heapFrom (v : List (T × Int)) (r last : Nat) : Prop :=
  ∀ j, j < last → 0 < j → r ≤ (j - 1) / 2 →
    (lget v j).2 ≤ (lget v ((j - 1) / 2)).2

/-- Proof-side contract of one sift-down call on the range [0, last) rooted
at r, relating the input vector v to the output w: length preserved, heap
shape restored at r, positions outside the subtree of r and outside the
range untouched, any upper bound of the subtree's counts preserved, and the
element multiset preserved. -/
def siftOK [DecidableEq T] (v w : List (T × Int)) (r last : Nat) : Prop :=
  w.length = v.length ∧
    heapFrom w r last ∧
    (∀ k, hasAnc r k = false → lget w k = lget v k) ∧
    (∀ k, last ≤ k → lget w k = lget v k) ∧
    (∀ b, (∀ j, hasAnc r j = true → j < last → (lget v j).2 ≤ b) →
      ∀ j, hasAnc r j = true → j < last → (lget w j).2 ≤ b) ∧
    w.Perm v

/-- Proof-side invariant of the most_common selection loop after i pops on a
working vector v obtained from the entries orig: the untouched prefix
[0, length - i) is still a heap, and every element in the selected suffix
[length - i, length) is at least every element before it (so the suffix is
ascending and dominates the prefix). -/
def popInv (orig v : List (T × Int)) (i : Nat) : Prop :=
  v.length = orig.length ∧
    v.Perm orig ∧
    heapFrom v 0 (v.length - i) ∧
    (∀ k j, v.length - i ≤ k → k < v.length → j < k →
      (lget v j).2 ≤ (lget v k).2)

end HeapModel

section ChainModel

variable {K V : Type} [DecidableEq K]

/-- ChainMap::at (collections.cpp:165-170 and the single-layer base
collections.cpp:210): try each layer front to back; `none` models the
std::out_of_range escaping when every layer misses. A ChainMap always has
at least one layer, so the [] case is unreachable from the modelled code. -/
def chain_at : List (List (K × V)) → K → Option V
  | [], _ => none
  | m :: ms, k =>
    match lookupC m k with
    | some v => some v
    | none => chain_at ms k

/-- ChainMap::operator[] (collections.cpp:172-177; single-layer base
collections.cpp:212). In `return map[k] = at(k);` the right operand at(k)
is evaluated first (C++17 sequencing), so when every layer misses the catch
block default-inserts into the front map; dflt models the value-initialized
V that the front map's operator[] inserts. -/
def chain_index (dflt : V) : List (List (K × V)) → K → V × List (List (K × V))
  | [], _ => (dflt, [])
  | [m], k =>
    match lookupC m k with
    | some v => (v, [m])
    | none => (dflt, [umapSet m k dflt])
  | m :: ms, k =>
    match chain_at (m :: ms) k with
    | some v => (v, umapSet m k v :: ms)
    | none => (dflt, umapSet m k dflt :: ms)

/-- The void one_map(Map&) recursion (collections.cpp:181-184 and 216):
insert every layer's entries front to back into the accumulator with
std::map insert, which keeps an already present key. -/
def oneMapAux : List (K × V) → List (List (K × V)) → List (K × V)
  | one, [] => one
  | one, m :: ms => oneMapAux (m.foldl umapInsert one) ms

/-- Map one_map() (collections.cpp:186-190; single-layer base
collections.cpp:218): multi-layer builds a fresh map and runs the insert
recursion; the single-layer base returns a copy of its one map. -/
def one_map : List (List (K × V)) → List (K × V)
  | [] => []
  | [m] => m
  | m :: m2 :: ms => oneMapAux [] (m :: m2 :: ms)

end ChainModel

/-
Lemmas and claim theorems.
-/

section MapLemmas

variable {K V : Type} [DecidableEq K]

theorem orO_assoc (a b c : Option V) : orO (orO a b) c = orO a (orO b c) := by
  cases a <;> rfl

theorem orO_none_right (a : Option V) : orO a none = a := by
  cases a <;> rfl

theorem lookupC_append (l1 l2 : List (K × V)) (k : K) :
    lookupC (l1 ++ l2) k = orO (lookupC l1 k) (lookupC l2 k) := by
  induction l1 with
  | nil => rfl
  | cons p l ih =>
      obtain ⟨a, v⟩ := p
      by_cases h : a = k <;> simp [lookupC, h, ih, orO]

theorem lookupC_umapInsert (m : List (K × V)) (p : K × V) (k : K) :
    lookupC (umapInsert m p) k =
      orO (lookupC m k) (if p.1 = k then some p.2 else none) := by
  unfold umapInsert
  cases hp : lookupC m p.1 with
  | some w =>
      by_cases h : p.1 = k
      · rw [← h, hp]; rfl
      · rw [if_neg h, orO_none_right]
  | none =>
      obtain ⟨a, v⟩ := p
      rw [lookupC_append]
      rfl

theorem lookupC_foldl_umapInsert (l acc : List (K × V)) (k : K) :
    lookupC (l.foldl umapInsert acc) k = orO (lookupC acc k) (lookupC l k) := by
  induction l generalizing acc with
  | nil => simp [lookupC, orO_none_right]
  | cons p l ih =>
      obtain ⟨a, v⟩ := p
      rw [List.foldl_cons, ih, lookupC_umapInsert, orO_assoc]
      congr 1
      by_cases h : a = k <;> simp [lookupC, h, orO]

theorem lookupC_umapSet_self (m : List (K × V)) (k : K) (v : V) :
    lookupC (umapSet m k v) k = some v := by
  induction m with
  | nil => simp [umapSet, lookupC]
  | cons p l ih =>
      obtain ⟨a, w⟩ := p
      by_cases h : a = k <;> simp [umapSet, lookupC, h, ih]

theorem umapSet_eq_of_lookupC (m : List (K × V)) (k : K) (v : V)
    (h : lookupC m k = some v) : umapSet m k v = m := by
  induction m with
  | nil => simp [lookupC] at h
  | cons p l ih =>
      obtain ⟨a, w⟩ := p
      by_cases ha : a = k
      · simp [lookupC, ha] at h
        simp [umapSet, ha, h]
      · simp [lookupC, ha] at h
        simp [umapSet, ha, ih h]

end MapLemmas

section ClaimC2

/-- C2 (amended): when a DefaultMapping is seeded from an initial list of
key/value pairs, the underlying std::unordered_map is range-constructed with
insert semantics, so a duplicated key keeps its first-seen value: looking up
any key in the constructed map is exactly first-occurrence lookup in the
initializer list. -/
theorem umapOfList_first_occurrence {K V : Type} [DecidableEq K]
    (il : List (K × V)) (k : K) :
    lookupC (umapOfList il) k = lookupC il k := by
  unfold umapOfList
  rw [lookupC_foldl_umapInsert]
  rfl

/-- C2 counterexample: seeding with the duplicate-key initializer
[(a,1),(a,2)] stores a ↦ 1 (the first-seen value), not the last-seen
value 2 the claim requires. -/
theorem umapOfList_dup_first_not_last :
    lookupC (umapOfList [('a', (1 : Int)), ('a', 2)]) 'a' = some 1 ∧
      some (1 : Int) ≠ some (2 : Int) := by
  exact ⟨rfl, by decide⟩

end ClaimC2

section ClaimC3

/-- C3: count_of returns the stored count when the element has an entry and
0 when it is absent, and the counting lookup leaves the mapping unchanged
(no entry is inserted on a miss). -/
theorem count_of_spec {T : Type} [DecidableEq T] (c : List (T × Int)) (t : T) :
    (∀ n, lookupC c t = some n → (count_of c t).1 = n) ∧
      (lookupC c t = none → (count_of c t).1 = 0) ∧
      (count_of c t).2 = c := by
  refine ⟨fun n h => ?_, fun h => ?_, rfl⟩
  · unfold count_of; rw [h]; rfl
  · unfold count_of; rw [h]; rfl

theorem count_of_spec_witness :
    (count_of [('a', (2 : Int))] 'a').1 = 2 ∧
      (count_of [('a', (2 : Int))] 'b').1 = 0 ∧
      (count_of [('a', (2 : Int))] 'a').2 = [('a', (2 : Int))] :=
  ⟨(count_of_spec [('a', (2 : Int))] 'a').1 2 (by decide),
    (count_of_spec [('a', (2 : Int))] 'b').2.1 (by decide),
    (count_of_spec [('a', (2 : Int))] 'a').2.2⟩

end ClaimC3

section ClaimC5

theorem chain_at_cons {K V : Type} [DecidableEq K]
    (m : List (K × V)) (ms : List (List (K × V))) (k : K) :
    chain_at (m :: ms) k = orO (lookupC m k) (chain_at ms k) := by
  cases h : lookupC m k <;> simp [chain_at, h, orO]

/-- C5: read on a LayeredMapping returns the value from the first layer,
front to back, containing the key (first-some over the per-layer lookups),
and fails with key-not-found (none) exactly when no layer contains it. -/
theorem chain_at_spec {K V : Type} [DecidableEq K]
    (ms : List (List (K × V))) (k : K) :
    chain_at ms k = ms.findSome? (fun m => lookupC m k) ∧
      (chain_at ms k = none ↔ ∀ m ∈ ms, lookupC m k = none) := by
  constructor
  · induction ms with
    | nil => rfl
    | cons m ms ih => cases h : lookupC m k <;> simp [chain_at, List.findSome?_cons, h, ih]
  · induction ms with
    | nil => simp [chain_at]
    | cons m ms ih => cases h : lookupC m k <;> simp [chain_at, h, ih]

theorem chain_at_spec_witness :
    chain_at [[('b', (3 : Int))], [('c', 5), ('d', 6)]] 'd' =
        List.findSome? (fun m => lookupC m 'd') [[('b', (3 : Int))], [('c', 5), ('d', 6)]] ∧
      (chain_at [[('b', (3 : Int))], [('c', 5), ('d', 6)]] 'd' = none ↔
        ∀ m ∈ [[('b', (3 : Int))], [('c', 5), ('d', 6)]], lookupC m 'd' = none) :=
  chain_at_spec [[('b', (3 : Int))], [('c', 5), ('d', 6)]] 'd'

end ClaimC5

section ClaimC4

/-- C4: read_write on a LayeredMapping. When the key is in the front layer,
the stored value is returned and the mapping is unchanged (the deeper layers
are not consulted: at() short-circuits on the front hit and map[k] = at(k)
rewrites the entry with its own value). When the front layer misses but a
deeper layer holds the key, the first deeper value is copied into the front
layer and returned. When every layer misses, the front map's operator[]
inserts the value-initialized default, which is returned. The deeper layers
are never modified. -/
theorem chain_index_spec {K V : Type} [DecidableEq K] (dflt : V)
    (front : List (K × V)) (rest : List (List (K × V))) (k : K) :
    (∀ v, lookupC front k = some v →
        chain_index dflt (front :: rest) k = (v, front :: rest)) ∧
      (lookupC front k = none → ∀ v, chain_at rest k = some v →
        chain_index dflt (front :: rest) k = (v, umapSet front k v :: rest) ∧
          lookupC (umapSet front k v) k = some v) ∧
      (lookupC front k = none → chain_at rest k = none →
        chain_index dflt (front :: rest) k = (dflt, umapSet front k dflt :: rest) ∧
          lookupC (umapSet front k dflt) k = some dflt) := by
  refine ⟨fun v hv => ?_, fun hf v hv => ⟨?_, lookupC_umapSet_self front k v⟩,
    fun hf hr => ⟨?_, lookupC_umapSet_self front k dflt⟩⟩
  · cases rest with
    | nil => simp [chain_index, hv]
    | cons r rs =>
        have hat : chain_at (front :: r :: rs) k = some v := by
          rw [chain_at_cons, hv]; rfl
        simp [chain_index, hat, umapSet_eq_of_lookupC front k v hv]
  · cases rest with
    | nil => simp [chain_at] at hv
    | cons r rs =>
        have hat : chain_at (front :: r :: rs) k = some v := by
          rw [chain_at_cons, hf]; exact hv
        simp [chain_index, hat]
  · cases rest with
    | nil => simp [chain_index, hf]
    | cons r rs =>
        have hat : chain_at (front :: r :: rs) k = none := by
          rw [chain_at_cons, hf]; exact hr
        simp [chain_index, hat]

theorem chain_index_spec_witness :
    chain_index (0 : Int) [[('b', (3 : Int))], [('c', 5), ('d', 6)]] 'b' =
        (3, [[('b', (3 : Int))], [('c', 5), ('d', 6)]]) ∧
      chain_index (0 : Int) [[('b', (3 : Int))], [('c', 5), ('d', 6)]] 'd' =
        (6, [[('b', (3 : Int)), ('d', 6)], [('c', 5), ('d', 6)]]) ∧
      chain_index (0 : Int) [[('b', (3 : Int))], [('c', 5), ('d', 6)]] 'z' =
        (0, [[('b', (3 : Int)), ('z', 0)], [('c', 5), ('d', 6)]]) :=
  ⟨(chain_index_spec 0 [('b', (3 : Int))] [[('c', 5), ('d', 6)]] 'b').1 3 (by decide),
    ((chain_index_spec 0 [('b', (3 : Int))] [[('c', 5), ('d', 6)]] 'd').2.1
      (by decide) 6 (by decide)).1,
    ((chain_index_spec 0 [('b', (3 : Int))] [[('c', 5), ('d', 6)]] 'z').2.2
      (by decide) (by decide)).1⟩

end ClaimC4

section ClaimC6

/-- C6: defaultdict's auto-creating lookup. For an absent key the factory is
invoked exactly once, its result is stored under the key and returned, and a
second lookup of the same key returns that stored value with no further
factory invocation and no state change; for a present key the stored value
is returned with the mapping unchanged and the factory not invoked. -/
theorem defaultdict_index_spec {K V : Type} [DecidableEq K]
    (f : Unit → V) (m : List (K × V)) (k : K) :
    (∀ v, lookupC m k = some v → defaultdict_index f m k = (v, m, 0)) ∧
      (lookupC m k = none →
        (defaultdict_index f m k).1 = f () ∧
          (defaultdict_index f m k).2.2 = 1 ∧
          lookupC (defaultdict_index f m k).2.1 k = some (f ()) ∧
          defaultdict_index f (defaultdict_index f m k).2.1 k =
            (f (), (defaultdict_index f m k).2.1, 0)) := by
  constructor
  · intro v hv
    simp [defaultdict_index, hv]
  · intro h
    have h1 : defaultdict_index f m k = (f (), umapSet m k (f ()), 1) := by
      simp [defaultdict_index, h]
    refine ⟨by rw [h1], by rw [h1], ?_, ?_⟩
    · rw [h1]; exact lookupC_umapSet_self m k (f ())
    · rw [h1]
      simp [defaultdict_index, lookupC_umapSet_self m k (f ())]

theorem defaultdict_index_spec_witness :
    defaultdict_index (fun _ => (-1 : Int)) [('a', (1 : Int))] 'b' =
        (-1, [('a', 1), ('b', -1)], 1) ∧
      defaultdict_index (fun _ => (-1 : Int)) [('a', (1 : Int)), ('b', -1)] 'b' =
        (-1, [('a', 1), ('b', -1)], 0) ∧
      defaultdict_index (fun _ => (-1 : Int)) [('a', (1 : Int))] 'a' =
        (1, [('a', 1)], 0) :=
  ⟨by rfl,
    (defaultdict_index_spec (fun _ => (-1 : Int)) [('a', (1 : Int)), ('b', -1)] 'b').1
      (-1) (by decide),
    (defaultdict_index_spec (fun _ => (-1 : Int)) [('a', (1 : Int))] 'a').1 1 (by decide)⟩

end ClaimC6

section ClaimC8

theorem cnt_bumpAdd {T : Type} [DecidableEq T] (m : List (T × Int)) (t : T)
    (d : Int) (s : T) :
    cntLookup (bumpAdd m t d) s = cntLookup m s + (if t = s then d else 0) := by
  induction m with
  | nil => by_cases h : t = s <;> simp [bumpAdd, cntLookup, lookupC, h]
  | cons p l ih =>
      obtain ⟨a, c⟩ := p
      by_cases ha : a = t
      · subst ha
        by_cases hs : a = s <;>
          simp [bumpAdd, cntLookup, lookupC, hs] <;> omega
      · by_cases hs : a = s
        · have hts : ¬ t = s := by rw [← hs]; exact fun hh => ha hh.symm
          have hst : ¬ s = t := by rw [← hs]; exact ha
          simp [bumpAdd, cntLookup, lookupC, ha, hs, hts, hst]
        · simpa [bumpAdd, cntLookup, lookupC, ha, hs] using ih

theorem cnt_bumpSub {T : Type} [DecidableEq T] (m : List (T × Int)) (t : T)
    (d : Int) (s : T) :
    cntLookup (bumpSub m t d) s = cntLookup m s - (if t = s then d else 0) := by
  induction m with
  | nil => by_cases h : t = s <;> simp [bumpSub, cntLookup, lookupC, h]
  | cons p l ih =>
      obtain ⟨a, c⟩ := p
      by_cases ha : a = t
      · subst ha
        by_cases hs : a = s <;>
          simp [bumpSub, cntLookup, lookupC, hs] <;> omega
      · by_cases hs : a = s
        · have hts : ¬ t = s := by rw [← hs]; exact fun hh => ha hh.symm
          have hst : ¬ s = t := by rw [← hs]; exact ha
          simp [bumpSub, cntLookup, lookupC, ha, hs, hts, hst]
        · simpa [bumpSub, cntLookup, lookupC, ha, hs] using ih

theorem cnt_counter_add {T : Type} [DecidableEq T] (c d : List (T × Int)) (s : T) :
    cntLookup (counter_add c d) s =
      cntLookup c s + (d.map (fun p => if p.1 = s then p.2 else 0)).sum := by
  unfold counter_add
  induction d generalizing c with
  | nil => simp
  | cons p dtl ih =>
      rw [List.foldl_cons, ih, cnt_bumpAdd]
      simp [add_assoc]

theorem cnt_counter_sub {T : Type} [DecidableEq T] (c d : List (T × Int)) (s : T) :
    cntLookup (counter_sub c d) s =
      cntLookup c s - (d.map (fun p => if p.1 = s then p.2 else 0)).sum := by
  unfold counter_sub
  induction d generalizing c with
  | nil => simp
  | cons p dtl ih =>
      rw [List.foldl_cons, ih, cnt_bumpSub]
      simp [sub_sub]

/-- C8: combine_add with an operand followed by combine_subtract with the
same operand restores every element's count (absent entries reading as
count 0). -/
theorem counter_add_sub_roundtrip {T : Type} [DecidableEq T]
    (c d : List (T × Int)) (t : T) :
    cntLookup (counter_sub (counter_add c d) d) t = cntLookup c t := by
  rw [cnt_counter_sub, cnt_counter_add]
  omega

end ClaimC8

section ClaimC9

theorem lookupC_oneMapAux {K V : Type} [DecidableEq K]
    (ms : List (List (K × V))) (acc : List (K × V)) (k : K) :
    lookupC (oneMapAux acc ms) k = orO (lookupC acc k) (chain_at ms k) := by
  induction ms generalizing acc with
  | nil => simp [oneMapAux, chain_at, orO_none_right]
  | cons m ms ih =>
      rw [show oneMapAux acc (m :: ms) = oneMapAux (m.foldl umapInsert acc) ms from rfl,
        ih, lookupC_foldl_umapInsert, orO_assoc, chain_at_cons]

/-- C9: flatten (one_map) produces a mapping whose lookup agrees with the
layered read everywhere — every key present in any layer is mapped to the
front-most layer's value — and whose key set is the union of the layers'
key sets. -/
theorem one_map_spec {K V : Type} [DecidableEq K]
    (ms : List (List (K × V))) (k : K) :
    lookupC (one_map ms) k = chain_at ms k ∧
      ((lookupC (one_map ms) k).isSome ↔ ∃ m, m ∈ ms ∧ (lookupC m k).isSome) := by
  have h1 : lookupC (one_map ms) k = chain_at ms k := by
    match ms with
    | [] => rfl
    | [m] => rw [show one_map [m] = m from rfl, chain_at_cons,
        show chain_at ([] : List (List (K × V))) k = none from rfl, orO_none_right]
    | m :: m2 :: ms =>
        rw [show one_map (m :: m2 :: ms) = oneMapAux [] (m :: m2 :: ms) from rfl,
          lookupC_oneMapAux]
        rfl
  have h2 : ∀ ns : List (List (K × V)),
      (chain_at ns k).isSome ↔ ∃ m, m ∈ ns ∧ (lookupC m k).isSome := by
    intro ns
    induction ns with
    | nil => simp [chain_at]
    | cons m ms ih =>
        rw [chain_at_cons]
        cases h : lookupC m k <;> simp [orO, h, ih]
  exact ⟨h1, by rw [h1]; exact h2 ms⟩

theorem one_map_spec_witness :
    lookupC (one_map [[('a', (1 : Int)), ('b', 2)], [('b', 3), ('c', 4)], [('c', 5), ('d', 6)]]) 'c' =
        chain_at [[('a', (1 : Int)), ('b', 2)], [('b', 3), ('c', 4)], [('c', 5), ('d', 6)]] 'c' ∧
      ((lookupC (one_map [[('a', (1 : Int)), ('b', 2)], [('b', 3), ('c', 4)], [('c', 5), ('d', 6)]]) 'c').isSome ↔
        ∃ m, m ∈ [[('a', (1 : Int)), ('b', 2)], [('b', 3), ('c', 4)], [('c', 5), ('d', 6)]] ∧
          (lookupC m 'c').isSome) :=
  one_map_spec [[('a', (1 : Int)), ('b', 2)], [('b', 3), ('c', 4)], [('c', 5), ('d', 6)]] 'c'

end ClaimC9

section ClaimC10

/-- C10: most_common leaves the counter unchanged — the ranking works on a
copied vector of the entries, so the post-state of the counter equals its
pre-state and every stored count is preserved. -/
theorem most_common_op_frame {T : Type} [Inhabited T] [DecidableEq T]
    (c : List (T × Int)) (n : Int) :
    (most_common_op c n).2 = c ∧
      ∀ t, cntLookup (most_common_op c n).2 t = cntLookup c t :=
  ⟨rfl, fun _ => rfl⟩

end ClaimC10

section ElementsLemmas

theorem seekLoop_spec {T : Type} (tl : List (T × Int)) (hd : T × Int) (c : Int)
    (hc : c ≤ 0) :
    iterSpec (⟨(seekLoop (hd :: tl) c).2, (seekLoop (hd :: tl) c).1⟩ : CIter T) =
        flatElements tl ∧
      ((seekLoop (hd :: tl) c).2 = [] ∨ 0 < (seekLoop (hd :: tl) c).1) := by
  induction tl generalizing hd c with
  | nil =>
      have hs : seekLoop [hd] c = (c, []) := by
        obtain ⟨t, c0⟩ := hd
        simp [seekLoop, not_lt.mpr hc]
      rw [hs]
      exact ⟨rfl, Or.inl rfl⟩
  | cons p tl2 ih =>
      obtain ⟨t2, c2⟩ := p
      obtain ⟨t, c0⟩ := hd
      have hstep : seekLoop ((t, c0) :: (t2, c2) :: tl2) c =
          seekLoop ((t2, c2) :: tl2) c2 := by
        simp [seekLoop, not_lt.mpr hc]
      rw [hstep]
      by_cases h2 : 0 < c2
      · have hs : seekLoop ((t2, c2) :: tl2) c2 = (c2, (t2, c2) :: tl2) := by
          simp [seekLoop, h2]
        rw [hs]
        refine ⟨?_, Or.inr h2⟩
        simp [iterSpec, flatElements, not_le.mpr h2]
      · have hres := ih (t2, c2) c2 (not_lt.mp h2)
        refine ⟨?_, hres.2⟩
        rw [hres.1]
        simp [flatElements, not_lt.mp h2]

theorem elemIterInc_spec {T : Type} (t : T) (c0 : Int) (tl : List (T × Int))
    (cnt : Int) (hc : 0 < cnt) :
    iterSpec (elemIterInc ⟨(t, c0) :: tl, cnt⟩) =
        List.replicate (cnt.toNat - 1) t ++ flatElements tl ∧
      ((elemIterInc ⟨(t, c0) :: tl, cnt⟩).rest = [] ∨
        0 < (elemIterInc ⟨(t, c0) :: tl, cnt⟩).count) := by
  show iterSpec ⟨(seekLoop ((t, c0) :: tl) (cnt - 1)).2,
      (seekLoop ((t, c0) :: tl) (cnt - 1)).1⟩ = _ ∧
    ((seekLoop ((t, c0) :: tl) (cnt - 1)).2 = [] ∨
      0 < (seekLoop ((t, c0) :: tl) (cnt - 1)).1)
  by_cases h1 : 0 < cnt - 1
  · have hs : seekLoop ((t, c0) :: tl) (cnt - 1) = (cnt - 1, (t, c0) :: tl) := by
      simp [seekLoop, h1]
    rw [hs]
    refine ⟨?_, Or.inr h1⟩
    have htn : (cnt - 1).toNat = cnt.toNat - 1 := by omega
    simp [iterSpec, htn]
  · have hc1 : cnt - 1 ≤ 0 := not_lt.mp h1
    obtain ⟨hspec, hal⟩ := seekLoop_spec tl (t, c0) (cnt - 1) hc1
    have hrep : cnt.toNat - 1 = 0 := by omega
    rw [hrep]
    exact ⟨by simpa using hspec, hal⟩

theorem elemRun_spec {T : Type} (fuel : Nat) (st : CIter T)
    (hal : st.rest = [] ∨ 0 < st.count)
    (hfuel : (iterSpec st).length ≤ fuel) :
    elemRun fuel st = iterSpec st := by
  induction fuel generalizing st with
  | zero =>
      rw [List.eq_nil_of_length_eq_zero (Nat.le_zero.mp hfuel)]
      rfl
  | succ fuel ih =>
      obtain ⟨rest, cnt⟩ := st
      cases rest with
      | nil => rfl
      | cons p tl =>
          obtain ⟨t, c0⟩ := p
          have hcnt : 0 < cnt := by
            rcases hal with h | h
            · exact absurd h (by simp)
            · exact h
          obtain ⟨hspec, hal2⟩ := elemIterInc_spec t c0 tl cnt hcnt
          have hlen : (iterSpec (elemIterInc ⟨(t, c0) :: tl, cnt⟩)).length ≤ fuel := by
            rw [hspec]
            simp only [iterSpec, List.length_append, List.length_replicate] at hfuel ⊢
            omega
          have hstep : elemRun (fuel + 1) ⟨(t, c0) :: tl, cnt⟩ =
              t :: elemRun fuel (elemIterInc ⟨(t, c0) :: tl, cnt⟩) := rfl
          rw [hstep, ih _ hal2 hlen, hspec]
          show t :: (List.replicate (cnt.toNat - 1) t ++ flatElements tl) =
            List.replicate cnt.toNat t ++ flatElements tl
          have hk : cnt.toNat = (cnt.toNat - 1) + 1 := by omega
          rw [hk, List.replicate_succ]
          rfl

theorem flatElements_skipNonpos {T : Type} (l : List (T × Int)) :
    flatElements (skipNonpos l) = flatElements l := by
  induction l with
  | nil => rfl
  | cons p tl ih =>
      obtain ⟨t, c⟩ := p
      by_cases hc : c ≤ 0 <;> simp [skipNonpos, flatElements, hc, ih]

theorem skipNonpos_head_pos {T : Type} (l tl : List (T × Int)) (t : T) (c : Int)
    (h : skipNonpos l = (t, c) :: tl) : 0 < c := by
  induction l with
  | nil => exact absurd h (by simp [skipNonpos])
  | cons p l2 ih =>
      obtain ⟨a, b⟩ := p
      by_cases hb : b ≤ 0
      · rw [show skipNonpos ((a, b) :: l2) = skipNonpos l2 from by
          simp [skipNonpos, hb]] at h
        exact ih h
      · rw [show skipNonpos ((a, b) :: l2) = (a, b) :: l2 from by
          simp [skipNonpos, hb]] at h
        obtain ⟨h1, h2⟩ := Prod.mk.injEq .. ▸ (List.cons.injEq .. ▸ h).1
        omega

theorem iterSpec_start {T : Type} (l : List (T × Int)) :
    iterSpec (elemIterStart l) = flatElements l ∧
      ((elemIterStart l : CIter T).rest = [] ∨ 0 < (elemIterStart l : CIter T).count) := by
  unfold elemIterStart
  cases hs : skipNonpos l with
  | nil =>
      refine ⟨?_, Or.inl rfl⟩
      rw [← flatElements_skipNonpos, hs]
      rfl
  | cons p tl =>
      obtain ⟨t, c⟩ := p
      have hpos : 0 < c := skipNonpos_head_pos l tl t c hs
      refine ⟨?_, Or.inr hpos⟩
      rw [← flatElements_skipNonpos, hs]
      simp [iterSpec, flatElements, not_le.mpr hpos]

theorem flatElements_length {T : Type} (l : List (T × Int)) :
    (flatElements l).length = (l.map (fun p => p.2.toNat)).sum := by
  induction l with
  | nil => rfl
  | cons p tl ih =>
      obtain ⟨t, c⟩ := p
      by_cases hc : c ≤ 0
      · have h0 : c.toNat = 0 := by omega
        simp [flatElements, hc, ih, h0]
      · simp [flatElements, hc, ih]

theorem elements_eq_flat {T : Type} (l : List (T × Int)) :
    elements l = flatElements l := by
  unfold elements
  obtain ⟨h1, h2⟩ := iterSpec_start l
  rw [elemRun_spec _ _ h2 (by rw [h1, flatElements_length]), h1]

theorem lookupC_eq_none_iff {T V : Type} [DecidableEq T]
    (l : List (T × V)) (t : T) :
    lookupC l t = none ↔ t ∉ l.map Prod.fst := by
  induction l with
  | nil => simp [lookupC]
  | cons p tl ih =>
      obtain ⟨a, v⟩ := p
      rw [List.map_cons]
      by_cases ha : a = t
      · simp [lookupC, ha]
      · rw [show lookupC ((a, v) :: tl) t = lookupC tl t from by simp [lookupC, ha],
          ih]
        constructor
        · intro h hmem
          rcases List.mem_cons.mp hmem with h1 | h1
          · exact ha h1.symm
          · exact h h1
        · intro h hmem
          exact h (List.mem_cons_of_mem _ hmem)

theorem mem_flatElements {T : Type} (l : List (T × Int)) (x : T)
    (h : x ∈ flatElements l) : x ∈ l.map Prod.fst := by
  induction l with
  | nil => exact absurd h (by simp [flatElements])
  | cons p tl ih =>
      obtain ⟨a, c⟩ := p
      by_cases hc : c ≤ 0
      · rw [show flatElements ((a, c) :: tl) = flatElements tl from by
          simp [flatElements, hc]] at h
        simp [ih h]
      · rw [show flatElements ((a, c) :: tl) =
            List.replicate c.toNat a ++ flatElements tl from by
          simp [flatElements, hc]] at h
        rcases List.mem_append.mp h with h | h
        · simp [List.eq_of_mem_replicate h]
        · simp [ih h]

theorem count_flatElements {T : Type} [DecidableEq T] (l : List (T × Int))
    (hnd : (l.map Prod.fst).Nodup) (t : T) :
    (flatElements l).count t = (cntLookup l t).toNat := by
  induction l with
  | nil => simp [flatElements, cntLookup, lookupC]
  | cons p tl ih =>
      obtain ⟨a, c⟩ := p
      rw [List.map_cons, List.nodup_cons] at hnd
      by_cases hat : a = t
      · subst hat
        have hnone : lookupC tl a = none := (lookupC_eq_none_iff tl a).mpr hnd.1
        have hcount0 : (flatElements tl).count a = 0 := by
          rw [ih hnd.2]
          simp [cntLookup, hnone]
        by_cases hc : c ≤ 0
        · have h0 : c.toNat = 0 := by omega
          simp [flatElements, hc, hcount0, cntLookup, lookupC, h0]
        · simp [flatElements, hc, List.count_append, hcount0, cntLookup, lookupC,
            List.count_replicate]
      · by_cases hc : c ≤ 0
        · simp [flatElements, hc, ih hnd.2, cntLookup, lookupC, hat]
        · simp [flatElements, hc, List.count_append, ih hnd.2, cntLookup, lookupC,
            hat, List.count_replicate]

end ElementsLemmas

section ClaimC7

/-- C7: elements() yields each element exactly max(count, 0) times —
`Int.toNat` is exactly max(count, 0) read as a natural number — entries
with count ≤ 0 contribute nothing and elements without an entry (stored
count 0) are never yielded, and the total number of yielded items is the
sum of the positive counts. -/
theorem elements_spec {T : Type} [DecidableEq T] (l : List (T × Int))
    (hnd : (l.map Prod.fst).Nodup) :
    (∀ t, (elements l).count t = (cntLookup l t).toNat) ∧
      (elements l).length = (l.map (fun p => p.2.toNat)).sum := by
  constructor
  · intro t
    rw [elements_eq_flat, count_flatElements l hnd t]
  · rw [elements_eq_flat, flatElements_length]

theorem elements_spec_witness :
    ([('a', (2 : Int)), ('b', 0), ('c', -1), ('d', 1)].map Prod.fst).Nodup ∧
      (elements [('a', (2 : Int)), ('b', 0), ('c', -1), ('d', 1)]).count 'a' = 2 ∧
      (elements [('a', (2 : Int)), ('b', 0), ('c', -1), ('d', 1)]).count 'c' = 0 ∧
      (elements [('a', (2 : Int)), ('b', 0), ('c', -1), ('d', 1)]).length = 3 :=
  ⟨by decide,
    ((elements_spec [('a', (2 : Int)), ('b', 0), ('c', -1), ('d', 1)] (by decide)).1 'a').trans
      (by decide),
    ((elements_spec [('a', (2 : Int)), ('b', 0), ('c', -1), ('d', 1)] (by decide)).1 'c').trans
      (by decide),
    ((elements_spec [('a', (2 : Int)), ('b', 0), ('c', -1), ('d', 1)] (by decide)).2).trans
      (by decide)⟩

end ClaimC7

section HeapBasicLemmas

variable {α : Type} [Inhabited α]

theorem lget_eq_getElem (l : List α) (i : Nat) (h : i < l.length) :
    lget l i = l[i] :=
  List.getD_eq_getElem l default h

theorem lget_set_eq (l : List α) (i : Nat) (a : α) (h : i < l.length) :
    lget (l.set i a) i = a := by
  unfold lget
  rw [List.getD_eq_getElem _ _ (by rw [List.length_set]; exact h)]
  simp [List.getElem_set]

theorem lget_set_ne (l : List α) (i j : Nat) (a : α) (h : i ≠ j) :
    lget (l.set i a) j = lget l j := by
  unfold lget
  rw [List.getD_eq_getElem?_getD, List.getD_eq_getElem?_getD, List.getElem?_set]
  simp [h]

theorem length_lswap (l : List α) (i j : Nat) :
    (lswap l i j).length = l.length := by
  unfold lswap
  rw [List.length_set, List.length_set]

theorem lget_lswap_left (l : List α) (i j : Nat) (hi : i < l.length)
    (hj : j < l.length) : lget (lswap l i j) i = lget l j := by
  unfold lswap
  by_cases hij : j = i
  · subst hij
    rw [lget_set_eq _ _ _ (by rw [List.length_set]; exact hj)]
  · rw [lget_set_ne _ _ _ _ hij, lget_set_eq _ _ _ hi]

theorem lget_lswap_right (l : List α) (i j : Nat) (hj : j < l.length) :
    lget (lswap l i j) j = lget l i := by
  unfold lswap
  rw [lget_set_eq _ _ _ (by rw [List.length_set]; exact hj)]

theorem lget_lswap_other (l : List α) (i j k : Nat) (hki : k ≠ i) (hkj : k ≠ j) :
    lget (lswap l i j) k = lget l k := by
  unfold lswap
  rw [lget_set_ne _ _ _ _ (fun h => hkj h.symm), lget_set_ne _ _ _ _ (fun h => hki h.symm)]

theorem count_lset [DecidableEq α] (l : List α) (i : Nat) (a x : α)
    (h : i < l.length) :
    (l.set i a).count x + (if lget l i = x then 1 else 0) =
      l.count x + (if a = x then 1 else 0) := by
  induction l generalizing i with
  | nil => simp at h
  | cons b tl ih =>
      cases i with
      | zero =>
          show (a :: tl).count x + _ = _
          have hb : lget (b :: tl) 0 = b := rfl
          rw [hb, List.count_cons, List.count_cons]
          by_cases hbx : b = x <;> by_cases hax : a = x <;> simp [hbx, hax] <;> omega
      | succ i =>
          show (b :: tl.set i a).count x + _ = _
          have hb : lget (b :: tl) (i + 1) = lget tl i := rfl
          rw [hb, List.count_cons, List.count_cons]
          have := ih i (by simpa using Nat.lt_of_succ_lt_succ h)
          omega

theorem count_lswap [DecidableEq α] (l : List α) (i j : Nat) (x : α)
    (hi : i < l.length) (hj : j < l.length) :
    (lswap l i j).count x = l.count x := by
  have hA := count_lset l i (lget l j) x hi
  have hsj : lget (l.set i (lget l j)) j = lget l j := by
    by_cases hij : i = j
    · subst hij; exact lget_set_eq _ _ _ hi
    · exact lget_set_ne _ _ _ _ hij
  have hB := count_lset (l.set i (lget l j)) j (lget l i) x
    (by rw [List.length_set]; exact hj)
  rw [hsj] at hB
  have : (lswap l i j).count x + (if lget l j = x then 1 else 0) =
      l.count x + (if lget l j = x then 1 else 0) := by
    unfold lswap
    omega
  omega

theorem lswap_perm [DecidableEq α] (l : List α) (i j : Nat)
    (hi : i < l.length) (hj : j < l.length) : (lswap l i j).Perm l :=
  List.perm_iff_count.mpr (fun x => count_lswap l i j x hi hj)

theorem drop_lset (l : List α) (i m : Nat) (a : α) (h : i < m) :
    (l.set i a).drop m = l.drop m := by
  induction l generalizing i m with
  | nil => rfl
  | cons b tl ih =>
      cases m with
      | zero => omega
      | succ m =>
          cases i with
          | zero => rfl
          | succ i =>
              show (b :: tl.set i a).drop (m + 1) = (b :: tl).drop (m + 1)
              have := ih i m (by omega)
              simpa using this

theorem drop_lswap (l : List α) (i j m : Nat) (hi : i < m) (hj : j < m) :
    (lswap l i j).drop m = l.drop m := by
  unfold lswap
  rw [drop_lset _ _ _ _ hj, drop_lset _ _ _ _ hi]

theorem drop_eq_of_lget (u v : List α) (m : Nat) (hlen : u.length = v.length)
    (h : ∀ k, m ≤ k → lget u k = lget v k) : u.drop m = v.drop m := by
  apply List.ext_getElem
  · simp [hlen]
  · intro n h1 h2
    rw [List.getElem_drop, List.getElem_drop]
    have hb1 : m + n < u.length := by
      have := h1
      simp only [List.length_drop] at this
      omega
    have hval := h (m + n) (Nat.le_add_right m n)
    rw [lget_eq_getElem _ _ hb1, lget_eq_getElem _ _ (by rw [← hlen]; exact hb1)] at hval
    exact hval

theorem count_take_of_drop [DecidableEq α] (u v : List α) (m : Nat) (x : α)
    (hcnt : u.count x = v.count x) (hdrop : u.drop m = v.drop m) :
    (u.take m).count x = (v.take m).count x := by
  have hu : (u.take m).count x + (u.drop m).count x = u.count x := by
    rw [← List.count_append, List.take_append_drop]
  have hv : (v.take m).count x + (v.drop m).count x = v.count x := by
    rw [← List.count_append, List.take_append_drop]
  rw [hdrop] at hu
  omega

theorem mem_take_of_counts [DecidableEq α] (u v : List α) (m : Nat)
    (h : ∀ x, (u.take m).count x = (v.take m).count x) (x : α)
    (hx : x ∈ u.take m) : x ∈ v.take m := by
  rw [← List.count_pos_iff] at hx ⊢
  rw [← h]
  exact hx

end HeapBasicLemmas

section AncLemmas

theorem hasAnc_le (r j : Nat) (h : hasAnc r j = true) : r ≤ j := by
  by_cases hle : j ≤ r
  · rw [hasAnc, if_pos hle] at h
    simp at h
    omega
  · omega

theorem hasAnc_self (r : Nat) : hasAnc r r = true := by
  rw [hasAnc]
  simp

theorem hasAnc_step (r j : Nat) (hr : r < j) :
    hasAnc r j = hasAnc r ((j - 1) / 2) := by
  rw [hasAnc, if_neg (by omega)]

theorem hasAnc_trans (r c : Nat) (h1 : hasAnc r c = true) :
    ∀ k, hasAnc c k = true → hasAnc r k = true := by
  intro k
  induction k using Nat.strong_induction_on with
  | _ k ih =>
      intro h2
      by_cases hk : k ≤ c
      · have hkc : k = c := by
          rw [hasAnc, if_pos hk] at h2
          simpa using h2
        rw [hkc]
        exact h1
      · have hck : c < k := by omega
        rw [hasAnc_step c k hck] at h2
        have hrk : r < k := lt_of_le_of_lt (hasAnc_le r c h1) hck
        rw [hasAnc_step r k hrk]
        exact ih ((k - 1) / 2) (by omega) h2

theorem hasAnc_zero (j : Nat) : hasAnc 0 j = true := by
  induction j using Nat.strong_induction_on with
  | _ j ih =>
      by_cases hj : j = 0
      · rw [hj]; exact hasAnc_self 0
      · rw [hasAnc_step 0 j (by omega)]
        exact ih _ (by omega)

theorem hasAnc_child_left (r : Nat) : hasAnc r (2 * r + 1) = true := by
  rw [hasAnc_step r (2 * r + 1) (by omega), show (2 * r + 1 - 1) / 2 = r from by omega]
  exact hasAnc_self r

theorem hasAnc_child_right (r : Nat) : hasAnc r (2 * r + 2) = true := by
  rw [hasAnc_step r (2 * r + 2) (by omega), show (2 * r + 2 - 1) / 2 = r from by omega]
  exact hasAnc_self r

theorem hasAnc_parent_of (r j : Nat) (h : hasAnc r j = true) (hne : j ≠ r) :
    hasAnc r ((j - 1) / 2) = true := by
  have hr : r < j := lt_of_le_of_ne (hasAnc_le r j h) (Ne.symm hne)
  rw [← hasAnc_step r j hr]
  exact h

theorem hasAnc_false_of_lt (r j : Nat) (h : j < r) : hasAnc r j = false := by
  cases hh : hasAnc r j with
  | false => rfl
  | true => exact absurd (hasAnc_le r j hh) (by omega)

end AncLemmas

section HeapFromLemmas

variable {T : Type} [Inhabited T]

theorem heapFrom_mono (v : List (T × Int)) (r1 r2 last : Nat) (h12 : r1 ≤ r2)
    (hh : heapFrom v r1 last) : heapFrom v r2 last := by
  intro j hj hpos hpar
  exact hh j hj hpos (le_trans h12 hpar)

theorem heapFrom_max (v : List (T × Int)) (r last : Nat) (hh : heapFrom v r last) :
    ∀ j, hasAnc r j = true → j < last → (lget v j).2 ≤ (lget v r).2 := by
  intro j
  induction j using Nat.strong_induction_on with
  | _ j ih =>
      intro hj hlast
      by_cases hjr : j = r
      · rw [hjr]
      · have hrj : r < j := lt_of_le_of_ne (hasAnc_le r j hj) (Ne.symm hjr)
        have hp : hasAnc r ((j - 1) / 2) = true := hasAnc_parent_of r j hj hjr
        have hstep : (lget v j).2 ≤ (lget v ((j - 1) / 2)).2 :=
          hh j hlast (by omega) (hasAnc_le _ _ hp)
        have hplast : (j - 1) / 2 < last := by
          have : (j - 1) / 2 < j := by omega
          omega
        exact le_trans hstep (ih ((j - 1) / 2) (by omega) hp hplast)

end HeapFromLemmas

section SiftDownLemmas

variable {T : Type} [Inhabited T] [DecidableEq T]

theorem siftDown_succ (fuel : Nat) (v : List (T × Int)) (r last : Nat) :
    siftDown (fuel + 1) v r last =
      if 2 * r + 1 < last then
        if (lget v r).2 <
            (lget v (if 2 * r + 2 < last ∧ (lget v (2 * r + 1)).2 < (lget v (2 * r + 2)).2
              then 2 * r + 2 else 2 * r + 1)).2 then
          siftDown fuel
            (lswap v r (if 2 * r + 2 < last ∧ (lget v (2 * r + 1)).2 < (lget v (2 * r + 2)).2
              then 2 * r + 2 else 2 * r + 1))
            (if 2 * r + 2 < last ∧ (lget v (2 * r + 1)).2 < (lget v (2 * r + 2)).2
              then 2 * r + 2 else 2 * r + 1) last
        else v
      else v := rfl

theorem siftOK_refl (v : List (T × Int)) (r last : Nat) (hh : heapFrom v r last) :
    siftOK v v r last :=
  ⟨rfl, hh, fun _ _ => rfl, fun _ _ => rfl, fun _ hb => hb, List.Perm.refl v⟩

theorem heapFrom_of_children (v : List (T × Int)) (r last : Nat)
    (hh : heapFrom v (r + 1) last)
    (hch : ∀ j, j < last → 0 < j → (j - 1) / 2 = r → (lget v j).2 ≤ (lget v r).2) :
    heapFrom v r last := by
  intro j hj hpos hpar
  by_cases hp : (j - 1) / 2 = r
  · rw [hp]
    exact hch j hj hpos hp
  · exact hh j hj hpos (by omega)

theorem siftDown_swap_case (fuel : Nat)
    (IH : ∀ (v : List (T × Int)) (r last : Nat), last ≤ fuel + r → last ≤ v.length →
      heapFrom v (r + 1) last → siftOK v (siftDown fuel v r last) r last)
    (v : List (T × Int)) (r last c : Nat)
    (hlen : last ≤ v.length) (hh : heapFrom v (r + 1) last)
    (hfrc : last ≤ fuel + c)
    (hrc : r < c) (hcl : c < last) (hpc : (c - 1) / 2 = r)
    (hsib : ∀ d, d < last → 0 < d → (d - 1) / 2 = r → d ≠ c →
      (lget v d).2 ≤ (lget v c).2)
    (hswap : (lget v r).2 < (lget v c).2) :
    siftOK v (siftDown fuel (lswap v r c) c last) r last := by
  have hrlen : r < v.length := by omega
  have hclen : c < v.length := by omega
  have hvr_c : lget (lswap v r c) r = lget v c := lget_lswap_left v r c hrlen hclen
  have hvc_r : lget (lswap v r c) c = lget v r := lget_lswap_right v r c hclen
  have hanc_rc : hasAnc r c = true := by
    rw [hasAnc_step r c hrc, hpc]
    exact hasAnc_self r
  have hNanc_cr : hasAnc c r = false := hasAnc_false_of_lt c r hrc
  have hmaxc : ∀ j, hasAnc c j = true → j < last → (lget v j).2 ≤ (lget v c).2 :=
    heapFrom_max v c last (heapFrom_mono v (r + 1) c last (by omega) hh)
  have hh' : heapFrom (lswap v r c) (c + 1) last := by
    intro j hj hpos hpar
    have hjnr : j ≠ r := by omega
    have hjnc : j ≠ c := by omega
    have hpnr : (j - 1) / 2 ≠ r := by omega
    have hpnc : (j - 1) / 2 ≠ c := by omega
    rw [lget_lswap_other v r c j hjnr hjnc, lget_lswap_other v r c _ hpnr hpnc]
    exact hh j hj hpos (by omega)
  obtain ⟨sk1, sk2, sk3, sk4, sk5, sk6⟩ :=
    IH (lswap v r c) c last hfrc (by rw [length_lswap]; exact hlen) hh'
  have hbnd_in : ∀ j, hasAnc c j = true → j < last →
      (lget (lswap v r c) j).2 ≤ (lget v c).2 := by
    intro j hj hjl
    by_cases hjc : j = c
    · rw [hjc, hvc_r]
      exact le_of_lt hswap
    · have hjr : j ≠ r := by
        intro he
        rw [he, hNanc_cr] at hj
        exact Bool.noConfusion hj
      rw [lget_lswap_other v r c j hjr hjc]
      exact hmaxc j hj hjl
  have hwr : lget (siftDown fuel (lswap v r c) c last) r = lget v c := by
    rw [sk3 r hNanc_cr, hvr_c]
  refine ⟨sk1.trans (length_lswap v r c), ?_, ?_, ?_, ?_,
    sk6.trans (lswap_perm v r c hrlen hclen)⟩
  · -- heapFrom w r last
    intro j hj hpos hpar
    by_cases hpr : (j - 1) / 2 = r
    · by_cases hjc : j = c
      · rw [hjc, hpc, hwr]
        exact sk5 (lget v c).2 hbnd_in c (hasAnc_self c) hcl
      · have hdanc : hasAnc c j = false := by
          cases hcj : hasAnc c j with
          | false => rfl
          | true =>
              have hp := hasAnc_parent_of c j hcj hjc
              rw [hpr, hNanc_cr] at hp
              exact Bool.noConfusion hp
        have hjr : j ≠ r := by omega
        have hwj : lget (siftDown fuel (lswap v r c) c last) j = lget v j :=
          (sk3 j hdanc).trans (lget_lswap_other v r c j hjr hjc)
        rw [hpr, hwj, hwr]
        exact hsib j hj hpos hpr hjc
    · by_cases hcp : hasAnc c ((j - 1) / 2) = true
      · exact sk2 j hj hpos (hasAnc_le c _ hcp)
      · have hcpf : hasAnc c ((j - 1) / 2) = false := by
          cases h2 : hasAnc c ((j - 1) / 2) with
          | false => rfl
          | true => exact absurd h2 hcp
        have hcjf : hasAnc c j = false := by
          cases hcj2 : hasAnc c j with
          | false => rfl
          | true =>
              by_cases hjc : j = c
              · exact absurd (hjc ▸ hpc) hpr
              · exact absurd (hasAnc_parent_of c j hcj2 hjc) hcp
        have hpnc : (j - 1) / 2 ≠ c := fun he => hcp (he ▸ hasAnc_self c)
        have hjnr : j ≠ r := by omega
        have hjnc : j ≠ c := by
          intro he
          rw [he, hasAnc_self] at hcjf
          exact Bool.noConfusion hcjf
        have hwj : lget (siftDown fuel (lswap v r c) c last) j = lget v j :=
          (sk3 j hcjf).trans (lget_lswap_other v r c j hjnr hjnc)
        have hwp : lget (siftDown fuel (lswap v r c) c last) ((j - 1) / 2) =
            lget v ((j - 1) / 2) :=
          (sk3 _ hcpf).trans (lget_lswap_other v r c _ hpr hpnc)
        rw [hwj, hwp]
        exact hh j hj hpos (by omega)
  · -- untouched outside the subtree of r
    intro k hkf
    have hkr : k ≠ r := by
      intro he
      rw [he, hasAnc_self] at hkf
      exact Bool.noConfusion hkf
    have hkc : k ≠ c := by
      intro he
      rw [he, hanc_rc] at hkf
      exact Bool.noConfusion hkf
    have hkcf : hasAnc c k = false := by
      cases hck : hasAnc c k with
      | false => rfl
      | true =>
          have := hasAnc_trans r c hanc_rc k hck
          rw [hkf] at this
          exact Bool.noConfusion this
    exact (sk3 k hkcf).trans (lget_lswap_other v r c k hkr hkc)
  · -- untouched at or beyond last
    intro k hk
    have hkr : k ≠ r := by omega
    have hkc : k ≠ c := by omega
    exact (sk4 k hk).trans (lget_lswap_other v r c k hkr hkc)
  · -- any subtree bound is preserved
    intro b hb j hj hjl
    by_cases hcj : hasAnc c j = true
    · refine sk5 b (fun j' hj' hj'l => ?_) j hcj hjl
      by_cases hj'c : j' = c
      · rw [hj'c, hvc_r]
        exact hb r (hasAnc_self r) (by omega)
      · have hj'r : j' ≠ r := by
          intro he
          rw [he, hNanc_cr] at hj'
          exact Bool.noConfusion hj'
        rw [lget_lswap_other v r c j' hj'r hj'c]
        exact hb j' (hasAnc_trans r c hanc_rc j' hj') hj'l
    · have hcjf : hasAnc c j = false := by
        cases h2 : hasAnc c j with
        | false => rfl
        | true => exact absurd h2 hcj
      rw [sk3 j hcjf]
      by_cases hjr : j = r
      · rw [hjr, hvr_c]
        exact hb c hanc_rc hcl
      · have hjc : j ≠ c := by
          intro he
          rw [he, hasAnc_self] at hcjf
          exact Bool.noConfusion hcjf
        rw [lget_lswap_other v r c j hjr hjc]
        exact hb j hj hjl

theorem siftDown_master (fuel : Nat) :
    ∀ (v : List (T × Int)) (r last : Nat), last ≤ fuel + r → last ≤ v.length →
      heapFrom v (r + 1) last → siftOK v (siftDown fuel v r last) r last := by
  induction fuel with
  | zero =>
      intro v r last hfr hlen hh
      show siftOK v v r last
      refine siftOK_refl v r last ?_
      intro j hj hpos hpar
      exfalso
      have : (j - 1) / 2 < j := by omega
      omega
  | succ fuel ih =>
      intro v r last hfr hlen hh
      rw [siftDown_succ]
      by_cases h1 : 2 * r + 1 < last
      · rw [if_pos h1]
        by_cases h2 : 2 * r + 2 < last ∧ (lget v (2 * r + 1)).2 < (lget v (2 * r + 2)).2
        · rw [if_pos h2]
          by_cases h3 : (lget v r).2 < (lget v (2 * r + 2)).2
          · rw [if_pos h3]
            refine siftDown_swap_case fuel ih v r last (2 * r + 2) hlen hh (by omega)
              (by omega) h2.1 (by omega) ?_ h3
            intro d hd hdpos hpd hdne
            have : d = 2 * r + 1 := by omega
            rw [this]
            exact le_of_lt h2.2
          · rw [if_neg h3]
            refine siftOK_refl v r last (heapFrom_of_children v r last hh ?_)
            intro j hj hjpos hpj
            have : j = 2 * r + 1 ∨ j = 2 * r + 2 := by omega
            rcases this with h | h <;> rw [h]
            · exact le_trans (le_of_lt h2.2) (not_lt.mp h3)
            · exact not_lt.mp h3
        · rw [if_neg h2]
          by_cases h3 : (lget v r).2 < (lget v (2 * r + 1)).2
          · rw [if_pos h3]
            refine siftDown_swap_case fuel ih v r last (2 * r + 1) hlen hh (by omega)
              (by omega) h1 (by omega) ?_ h3
            intro d hd hdpos hpd hdne
            have hd2 : d = 2 * r + 2 := by omega
            have hnb : ¬ (lget v (2 * r + 1)).2 < (lget v (2 * r + 2)).2 := by
              intro hb
              exact h2 ⟨by omega, hb⟩
            rw [hd2]
            exact not_lt.mp hnb
          · rw [if_neg h3]
            refine siftOK_refl v r last (heapFrom_of_children v r last hh ?_)
            intro j hj hjpos hpj
            have : j = 2 * r + 1 ∨ j = 2 * r + 2 := by omega
            rcases this with h | h <;> rw [h]
            · exact not_lt.mp h3
            · have hnb : ¬ (lget v (2 * r + 1)).2 < (lget v (2 * r + 2)).2 := by
                intro hb
                exact h2 ⟨by omega, hb⟩
              exact le_trans (not_lt.mp hnb) (not_lt.mp h3)
      · rw [if_neg h1]
        refine siftOK_refl v r last (heapFrom_of_children v r last hh ?_)
        intro j hj hjpos hpj
        exfalso
        omega

end SiftDownLemmas

section HeapSelectionLemmas

variable {T : Type} [Inhabited T] [DecidableEq T]

theorem siftDown_length : ∀ (fuel : Nat) (v : List (T × Int)) (r last : Nat),
    (siftDown fuel v r last).length = v.length := by
  intro fuel
  induction fuel with
  | zero => intro v r last; rfl
  | succ fuel ih =>
      intro v r last
      rw [siftDown_succ]
      by_cases h1 : 2 * r + 1 < last
      · rw [if_pos h1]
        by_cases h3 : (lget v r).2 <
            (lget v (if 2 * r + 2 < last ∧ (lget v (2 * r + 1)).2 < (lget v (2 * r + 2)).2
              then 2 * r + 2 else 2 * r + 1)).2
        · rw [if_pos h3, ih, length_lswap]
        · rw [if_neg h3]
      · rw [if_neg h1]

theorem heapLoop_spec : ∀ (k : Nat) (v : List (T × Int)), heapFrom v k v.length →
    (heapLoop v k).length = v.length ∧ heapFrom (heapLoop v k) 0 v.length ∧
      (heapLoop v k).Perm v := by
  intro k
  induction k with
  | zero => intro v hh; exact ⟨rfl, hh, List.Perm.refl v⟩
  | succ k ih =>
      intro v hh
      have hm := siftDown_master v.length v k v.length (by omega) (le_refl _) hh
      obtain ⟨m1, m2, m3, m4, m5, m6⟩ := hm
      have hstep : heapLoop v (k + 1) = heapLoop (siftDown v.length v k v.length) k := rfl
      obtain ⟨i1, i2, i3⟩ := ih (siftDown v.length v k v.length) (by rw [m1]; exact m2)
      rw [hstep]
      have i2a : heapFrom (heapLoop (siftDown v.length v k v.length) k) 0 v.length := by
        have h := i2
        rw [m1] at h
        exact h
      exact ⟨i1.trans m1, i2a, i3.trans m6⟩

theorem makeHeap_spec (v : List (T × Int)) :
    (makeHeap v).length = v.length ∧ heapFrom (makeHeap v) 0 v.length ∧
      (makeHeap v).Perm v := by
  apply heapLoop_spec
  intro j hj hpos hpar
  exfalso
  have : (j - 1) / 2 < j := by omega
  omega

theorem popHeap_length (v : List (T × Int)) (m : Nat) :
    (popHeap v m).length = v.length := by
  unfold popHeap
  by_cases h2 : 2 ≤ m
  · rw [if_pos h2, siftDown_length, length_lswap]
  · rw [if_neg h2]

theorem popHeap_spec (v : List (T × Int)) (m : Nat) (hm : 1 ≤ m)
    (hlen : m ≤ v.length) (hh : heapFrom v 0 m) :
    (popHeap v m).Perm v ∧
      heapFrom (popHeap v m) 0 (m - 1) ∧
      (∀ k, m ≤ k → lget (popHeap v m) k = lget v k) ∧
      lget (popHeap v m) (m - 1) = lget v 0 ∧
      (∀ j, j < m → (lget v j).2 ≤ (lget v 0).2) ∧
      (∀ j, j < m - 1 → ∃ q, q < m ∧ lget (popHeap v m) j = lget v q) := by
  have hmax : ∀ j, j < m → (lget v j).2 ≤ (lget v 0).2 := fun j hj =>
    heapFrom_max v 0 m hh j (hasAnc_zero j) hj
  by_cases h2 : 2 ≤ m
  · have hpop : popHeap v m = siftDown m (lswap v 0 (m - 1)) 0 (m - 1) := by
      unfold popHeap
      rw [if_pos h2]
    have hh' : heapFrom (lswap v 0 (m - 1)) 1 (m - 1) := by
      intro j hj hpos hpar
      have hj0 : j ≠ 0 := by omega
      have hjm : j ≠ m - 1 := by omega
      have hp0 : (j - 1) / 2 ≠ 0 := by omega
      have hpm : (j - 1) / 2 ≠ m - 1 := by omega
      rw [lget_lswap_other v 0 (m - 1) j hj0 hjm,
        lget_lswap_other v 0 (m - 1) _ hp0 hpm]
      exact hh j (by omega) hpos (by omega)
    obtain ⟨m1, m2, m3, m4, m5, m6⟩ :=
      siftDown_master m (lswap v 0 (m - 1)) 0 (m - 1) (by omega)
        (by rw [length_lswap]; omega) hh'
    rw [← hpop] at m1 m2 m3 m4 m5 m6
    have hlenw : (popHeap v m).length = v.length := popHeap_length v m
    have h0len : (0 : Nat) < v.length := by omega
    have hm1len : m - 1 < v.length := by omega
    have htop : lget (popHeap v m) (m - 1) = lget v 0 := by
      rw [m4 (m - 1) (le_refl _), lget_lswap_right v 0 (m - 1) hm1len]
    have hperm : (popHeap v m).Perm v :=
      m6.trans (lswap_perm v 0 (m - 1) h0len hm1len)
    refine ⟨hperm, m2, ?_, htop, hmax, ?_⟩
    · intro k hk
      have hk0 : k ≠ 0 := by omega
      have hkm : k ≠ m - 1 := by omega
      rw [m4 k (by omega), lget_lswap_other v 0 (m - 1) k hk0 hkm]
    · -- every element of the shortened prefix is an element of the old range
      intro j hj
      have hdrop : (popHeap v m).drop (m - 1) = (lswap v 0 (m - 1)).drop (m - 1) :=
        drop_eq_of_lget _ _ (m - 1) (by rw [hlenw, length_lswap]) m4
      have htake := fun x =>
        count_take_of_drop (popHeap v m) (lswap v 0 (m - 1)) (m - 1) x
          (List.perm_iff_count.mp m6 x) hdrop
      have hjlen : j < (popHeap v m).length := by omega
      have hmem : lget (popHeap v m) j ∈ (popHeap v m).take (m - 1) := by
        rw [lget_eq_getElem _ _ hjlen]
        have hjt : j < ((popHeap v m).take (m - 1)).length := by
          rw [List.length_take]
          omega
        have := List.getElem_take (popHeap v m) (j := m - 1) (i := j) (h := hjt)
        rw [← this]
        exact List.getElem_mem hjt
      have hmem2 : lget (popHeap v m) j ∈ (lswap v 0 (m - 1)).take (m - 1) :=
        mem_take_of_counts _ _ (m - 1) htake _ hmem
      obtain ⟨p, hp, hpe⟩ := List.mem_iff_getElem.mp hmem2
      have hplen : p < m - 1 := by
        rw [List.length_take, length_lswap] at hp
        omega
      have hpe2 : lget (lswap v 0 (m - 1)) p = lget (popHeap v m) j := by
        rw [lget_eq_getElem _ _ (by rw [length_lswap]; omega)]
        rw [← hpe]
        exact (List.getElem_take _).symm
      by_cases hp0 : p = 0
      · refine ⟨m - 1, by omega, ?_⟩
        rw [← hpe2, hp0, lget_lswap_left v 0 (m - 1) h0len hm1len]
      · refine ⟨p, by omega, ?_⟩
        rw [← hpe2, lget_lswap_other v 0 (m - 1) p hp0 (by omega)]
  · -- m = 1: pop_heap on a one-element range is untouched
    have hm1 : m = 1 := by omega
    have hpop : popHeap v m = v := by
      unfold popHeap
      rw [if_neg h2]
    rw [hpop, hm1]
    refine ⟨List.Perm.refl v, ?_, fun k _ => rfl, rfl, by rw [← hm1]; exact hmax, ?_⟩
    · intro j hj _ _
      omega
    · intro j hj
      omega

theorem popLoop_succ (v : List (T × Int)) (k i : Nat) :
    popLoop v (k + 1) i =
      if v.length < i then none
      else popLoop (popHeap v (v.length - i)) k (i + 1) := rfl

theorem popLoop_some_length : ∀ (k i : Nat) (v w : List (T × Int)),
    popLoop v k i = some w → w.length = v.length := by
  intro k
  induction k with
  | zero =>
      intro i v w h
      cases h
      rfl
  | succ k ih =>
      intro i v w h
      rw [popLoop_succ] at h
      by_cases hg : v.length < i
      · rw [if_pos hg] at h
        exact Option.noConfusion h
      · rw [if_neg hg] at h
        exact (ih _ _ _ h).trans (popHeap_length v (v.length - i))

theorem popLoop_inv : ∀ (k i : Nat) (orig v : List (T × Int)), popInv orig v i →
    i + k ≤ v.length →
    ∃ w, popLoop v k i = some w ∧ popInv orig w (i + k) := by
  intro k
  induction k with
  | zero =>
      intro i orig v hinv hik
      exact ⟨v, rfl, hinv⟩
  | succ k ih =>
      intro i orig v hinv hik
      obtain ⟨hlen, hperm, hheap, hsorted⟩ := hinv
      have hg : ¬ v.length < i := by omega
      rw [popLoop_succ, if_neg hg]
      have hm1 : 1 ≤ v.length - i := by omega
      have hm2 : v.length - i ≤ v.length := by omega
      obtain ⟨p1, p2, p3, p4, p5, p6⟩ :=
        popHeap_spec v (v.length - i) hm1 hm2 hheap
      have hlenw : (popHeap v (v.length - i)).length = v.length :=
        popHeap_length v (v.length - i)
      have hinv' : popInv orig (popHeap v (v.length - i)) (i + 1) := by
        refine ⟨hlenw.trans hlen, p1.trans hperm, ?_, ?_⟩
        · rw [hlenw]
          have : v.length - (i + 1) = v.length - i - 1 := by omega
          rw [this]
          exact p2
        · rw [hlenw]
          intro kk jj hkk hkklen hjj
          by_cases hkktop : kk = v.length - i - 1
          · have hkkval : lget (popHeap v (v.length - i)) kk = lget v 0 := by
              rw [hkktop]
              exact p4
            rw [hkkval]
            obtain ⟨q, hq, hqe⟩ := p6 jj (by omega)
            rw [hqe]
            exact p5 q hq
          · have hkkge : v.length - i ≤ kk := by omega
            have hkkval : lget (popHeap v (v.length - i)) kk = lget v kk := p3 kk hkkge
            rw [hkkval]
            by_cases hjjge : v.length - i ≤ jj
            · rw [p3 jj hjjge]
              exact hsorted kk jj hkkge hkklen hjj
            · by_cases hjjtop : jj = v.length - i - 1
              · rw [hjjtop, p4]
                exact hsorted kk 0 hkkge hkklen (by omega)
              · obtain ⟨q, hq, hqe⟩ := p6 jj (by omega)
                rw [hqe]
                exact hsorted kk q hkkge hkklen (by omega)
      obtain ⟨w, hw, hwinv⟩ := ih (i + 1) orig (popHeap v (v.length - i)) hinv'
        (by rw [hlenw]; omega)
      refine ⟨w, hw, ?_⟩
      have : i + (k + 1) = i + 1 + k := by omega
      rw [this]
      exact hwinv

end HeapSelectionLemmas

section ClaimC1

theorem most_common_eq {T : Type} [Inhabited T] (c : List (T × Int)) (n : Int) :
    most_common c n =
      match popLoop (makeHeap c) (if n = 0 then (c.length : Int) else n).toNat 0 with
      | none => none
      | some v => takeRevEnd v (if n = 0 then (c.length : Int) else n) := rfl

theorem most_common_core {T : Type} [Inhabited T] [DecidableEq T]
    (l : List (T × Int)) (n' : Int) (h0 : 0 ≤ n') (h1 : n' ≤ (l.length : Int)) :
    ∃ w, popLoop (makeHeap l) n'.toNat 0 = some w ∧
      takeRevEnd w n' = some (w.reverse.take n'.toNat) ∧
      List.Pairwise (fun a b : T × Int => b.2 ≤ a.2) (w.reverse.take n'.toNat) ∧
      (w.reverse.take n'.toNat).length = n'.toNat ∧
      (n' = (l.length : Int) → (w.reverse.take n'.toNat).Perm l) := by
  have htle : n'.toNat ≤ l.length := by omega
  obtain ⟨mh1, mh2, mh3⟩ := makeHeap_spec l
  have hinv0 : popInv l (makeHeap l) 0 := by
    refine ⟨mh1, mh3, ?_, ?_⟩
    · have hz : (makeHeap l).length - 0 = (makeHeap l).length := by omega
      rw [hz, mh1]
      exact mh2
    · intro kk jj hkk hkklen hjj
      exfalso
      omega
  obtain ⟨w, hw, winv⟩ := popLoop_inv n'.toNat 0 l (makeHeap l) hinv0
    (by rw [mh1]; omega)
  obtain ⟨wlen, wperm, wheap, wsorted⟩ := winv
  have hwlen : w.length = l.length := wlen
  have hNw : n'.toNat ≤ w.length := by omega
  have htre : takeRevEnd w n' = some (w.reverse.take n'.toNat) := by
    unfold takeRevEnd
    rw [if_pos ⟨h0, by rw [hwlen]; exact h1⟩]
  have ht2 : (w.reverse.take n'.toNat).length = n'.toNat := by
    rw [List.length_take, List.length_reverse]
    exact Nat.min_eq_left hNw
  refine ⟨w, hw, htre, ?_, ht2, ?_⟩
  · rw [List.pairwise_iff_getElem]
    intro i j hi hj hij
    have hiN : i < n'.toNat := by omega
    have hjN : j < n'.toNat := by omega
    have hbi : w.length - 1 - i < w.length := by omega
    have hbj : w.length - 1 - j < w.length := by omega
    have hgi : (w.reverse.take n'.toNat)[i] = w[w.length - 1 - i] := by
      rw [List.getElem_take, List.getElem_reverse]
    have hgj : (w.reverse.take n'.toNat)[j] = w[w.length - 1 - j] := by
      rw [List.getElem_take, List.getElem_reverse]
    rw [hgi, hgj]
    have hs := wsorted (w.length - 1 - i) (w.length - 1 - j) (by omega) (by omega)
      (by omega)
    rw [lget_eq_getElem _ _ hbj, lget_eq_getElem _ _ hbi] at hs
    exact hs
  · intro hfull
    have htn : n'.toNat = w.length := by omega
    have htr : w.reverse.take n'.toNat = w.reverse := by
      rw [htn, show w.length = w.reverse.length from (List.length_reverse w).symm,
        List.take_length]
    rw [htr]
    exact (List.reverse_perm w).trans wperm

/-- C1 (amended): most_common(n) for 0 ≤ n ≤ number of entries succeeds and
returns entries ordered by descending count; most_common(0) — the value of
the omitted argument — and most_common(size) return all entries (a
permutation of the stored entry list, of the corresponding length); but for
every n strictly greater than the number of entries the call walks the
working vector out of range (v.end() - n before v.begin()) instead of
returning all entries: in the model it produces no result. -/
theorem most_common_spec {T : Type} [Inhabited T] [DecidableEq T]
    (l : List (T × Int)) (n : Int) :
    (0 ≤ n → n ≤ (l.length : Int) →
      ∃ r, most_common l n = some r ∧
        List.Pairwise (fun a b : T × Int => b.2 ≤ a.2) r ∧
        r.length = (if n = 0 then l.length else n.toNat) ∧
        ((n = 0 ∨ n = (l.length : Int)) → r.Perm l)) ∧
    ((l.length : Int) < n → most_common l n = none) := by
  constructor
  · intro h0 h1
    by_cases hz : n = 0
    · obtain ⟨w, hw, htre, hpair, hlen2, hperm⟩ :=
        most_common_core l (l.length : Int) (by omega) (le_refl _)
      refine ⟨w.reverse.take ((l.length : Int)).toNat, ?_, hpair, ?_, fun _ => hperm rfl⟩
      · rw [most_common_eq, if_pos hz, hw]
        exact htre
      · rw [hlen2, if_pos hz, Int.toNat_natCast]
    · obtain ⟨w, hw, htre, hpair, hlen2, hperm⟩ := most_common_core l n h0 h1
      refine ⟨w.reverse.take n.toNat, ?_, hpair, ?_, ?_⟩
      · rw [most_common_eq, if_neg hz, hw]
        exact htre
      · rw [hlen2, if_neg hz]
      · intro hcase
        rcases hcase with h | h
        · exact absurd h hz
        · exact hperm h
  · intro hgt
    have hlpos : (0 : Int) ≤ (l.length : Int) := Int.natCast_nonneg _
    have hne : n ≠ 0 := by omega
    rw [most_common_eq, if_neg hne]
    obtain ⟨mh1, _, _⟩ := makeHeap_spec l
    cases hp : popLoop (makeHeap l) n.toNat 0 with
    | none => rfl
    | some w =>
        have hwl : w.length = l.length := (popLoop_some_length _ _ _ _ hp).trans mh1
        show takeRevEnd w n = none
        unfold takeRevEnd
        rw [if_neg]
        intro hcond
        rw [hwl] at hcond
        omega

/-- C1 counterexample: on a counter with one stored entry, most_common(2)
(n greater than the number of entries) does not return all entries — the
modelled call fails on the out-of-range vector arithmetic. -/
theorem most_common_cex :
    most_common [(('a' : Char), (1 : Int))] 2 = none := by decide

theorem most_common_spec_witness :
    (0 : Int) ≤ 2 ∧
      (2 : Int) ≤ (([(('a' : Char), (3 : Int)), ('b', 1), ('c', 2)].length : Int)) ∧
      ∃ r, most_common [(('a' : Char), (3 : Int)), ('b', 1), ('c', 2)] 2 = some r ∧
        List.Pairwise (fun a b : Char × Int => b.2 ≤ a.2) r ∧
        r.length = (if (2 : Int) = 0 then
          [(('a' : Char), (3 : Int)), ('b', 1), ('c', 2)].length else (2 : Int).toNat) ∧
        (((2 : Int) = 0 ∨ (2 : Int) =
            ([(('a' : Char), (3 : Int)), ('b', 1), ('c', 2)].length : Int)) →
          r.Perm [(('a' : Char), (3 : Int)), ('b', 1), ('c', 2)]) :=
  ⟨by decide, by decide,
    (most_common_spec [(('a' : Char), (3 : Int)), ('b', 1), ('c', 2)] 2).1
      (by decide) (by decide)⟩

end ClaimC1
